import Mathlib

/-!
MurmurHash2 (64-bit) as implemented in `murmur2.c`

A shallow embedding of `scripts/crates/build_word_embedding_models/murmur2.c`.

* `uint64_t` values are natural numbers, reduced `% 2 ^ 64` wherever the C
  arithmetic can wrap (multiplication, left shift).
* The memory behind `key` is a list of bytes (`Fin 256`); a pointer is a byte
  offset from `key`.  Every load is bounds-checked and returns a fault when the
  offset lies outside the list.
* The target is x86-64, so the `uint64_t` load `*data++` assembles its eight
  bytes little-endian.
* The `while` loop runs on fuel; running out of fuel is a fault of its own,
  distinct from an out-of-bounds load.
* The machine state carries a log of every memory access, in program order.
-/

namespace Murmur2

/-- A memory access performed by the code: an eight-byte `uint64_t` load or a
one-byte `unsigned char` load, at a byte offset from `key`. -/
inductive Access where
  | word (off : Nat)
  | byte (off : Nat)
  deriving DecidableEq, Repr

/-- The byte offsets touched by a memory access. -/
def Access.indices : Access → List Nat
  | .word off => (List.range 8).map (fun i => off + i)
  | .byte off => [off]

/-- The ways in which an execution of the embedding can go wrong. -/
inductive Fault where
  | outOfBounds
  | outOfFuel
  deriving DecidableEq, Repr

/-- The result of an execution: a value or a fault. -/
inductive Res (α : Type) where
  | ok (a : α)
  | fault (f : Fault)
  deriving DecidableEq, Repr

/-- The state that the code threads through: the accumulator `h` and the log
of memory accesses made so far (oldest first). -/
structure Machine where
  h : Nat
  log : List Access
  deriving DecidableEq, Repr

/-- The multiplier `const uint64_t m = 0xc6a4a7935bd1e995;`. -/
def m : Nat := 0xc6a4a7935bd1e995

/-- The shift amount `const int r = 47;`. -/
def r : Nat := 47

/-- Little-endian value of the `n` bytes of `mem` starting at offset `p`, or
`none` when one of them lies outside `mem`. -/
def loadLE (mem : List (Fin 256)) : Nat → Nat → Option Nat
  | _, 0 => some 0
  | p, n + 1 =>
    match mem[p]?, loadLE mem (p + 1) n with
    | some b, some v => some (b.val + 256 * v)
    | _, _ => none

/-- The load `*data` through a `const uint64_t *` at byte offset `data`. -/
def load64 (mem : List (Fin 256)) (data : Nat) : Option Nat :=
  loadLE mem data 8

/-- The load `data2[i]` through a `const unsigned char *`. -/
def load8 (mem : List (Fin 256)) (data2 i : Nat) : Option Nat :=
  (mem[data2 + i]?).map Fin.val

/-- The body of the `while` loop once `k` has been loaded:
`k *= m; k ^= k >> r; k *= m; h ^= k; h *= m;`. -/
def mixChunk (h k : Nat) : Nat :=
  let k := k * m % 2 ^ 64
  let k := k ^^^ (k >>> r)
  let k := k * m % 2 ^ 64
  let h := h ^^^ k
  h * m % 2 ^ 64

/-- The loop `while (data != end) { uint64_t k = *data++; ... }`.  `data` and
`end_` are byte offsets; the result is the final `data` and machine state. -/
def chunkLoop (mem : List (Fin 256)) (end_ : Nat) :
    Nat → Nat → Machine → Res (Nat × Machine)
  | fuel, data, s =>
    if data ≠ end_ then
      match fuel with
      | 0 => .fault .outOfFuel
      | fuel + 1 =>
        match load64 mem data with
        | none => .fault .outOfBounds
        | some k =>
          chunkLoop mem end_ fuel (data + 8)
            { h := mixChunk s.h k, log := s.log ++ [Access.word data] }
    else .ok (data, s)

/-- The `default:` label of the switch: `h *= m;`. -/
def caseDefault (s : Machine) : Res Machine :=
  .ok { s with h := s.h * m % 2 ^ 64 }

/-- One `case` arm that falls through: `h ^= ((uint64_t)data2[i]) << sh;`
followed by whatever comes `next`. -/
def caseArm (mem : List (Fin 256)) (data2 i sh : Nat) (next : Machine → Res Machine)
    (s : Machine) : Res Machine :=
  match load8 mem data2 i with
  | none => .fault .outOfBounds
  | some b =>
    next { h := s.h ^^^ (b <<< sh % 2 ^ 64), log := s.log ++ [Access.byte (data2 + i)] }

/-- The label `case 1:`. -/
def case1 (mem : List (Fin 256)) (data2 : Nat) : Machine → Res Machine :=
  caseArm mem data2 0 0 caseDefault

/-- The label `case 2:`. -/
def case2 (mem : List (Fin 256)) (data2 : Nat) : Machine → Res Machine :=
  caseArm mem data2 1 8 (case1 mem data2)

/-- The label `case 3:`. -/
def case3 (mem : List (Fin 256)) (data2 : Nat) : Machine → Res Machine :=
  caseArm mem data2 2 16 (case2 mem data2)

/-- The label `case 4:`. -/
def case4 (mem : List (Fin 256)) (data2 : Nat) : Machine → Res Machine :=
  caseArm mem data2 3 24 (case3 mem data2)

/-- The label `case 5:`. -/
def case5 (mem : List (Fin 256)) (data2 : Nat) : Machine → Res Machine :=
  caseArm mem data2 4 32 (case4 mem data2)

/-- The label `case 6:`. -/
def case6 (mem : List (Fin 256)) (data2 : Nat) : Machine → Res Machine :=
  caseArm mem data2 5 40 (case5 mem data2)

/-- The label `case 7:`. -/
def case7 (mem : List (Fin 256)) (data2 : Nat) : Machine → Res Machine :=
  caseArm mem data2 6 48 (case6 mem data2)

/-- The statement `switch (len & 7) { case 7: ... case 1: ... default: ... }`. -/
def tailSwitch (mem : List (Fin 256)) (data2 len : Nat) (s : Machine) : Res Machine :=
  match len &&& 7 with
  | 7 => case7 mem data2 s
  | 6 => case6 mem data2 s
  | 5 => case5 mem data2 s
  | 4 => case4 mem data2 s
  | 3 => case3 mem data2 s
  | 2 => case2 mem data2 s
  | 1 => case1 mem data2 s
  | _ => caseDefault s

/-- The closing statements `h ^= h >> r; h *= m; h ^= h >> r;`. -/
def finalize (h : Nat) : Nat :=
  let h := h ^^^ (h >>> r)
  let h := h * m % 2 ^ 64
  h ^^^ (h >>> r)

/-- The whole function body of `murmur2(key, len, seed)`, run with `fuel`
iterations available to the loop.  `key` is offset `0` of `mem`. -/
def murmur2Exec (fuel : Nat) (mem : List (Fin 256)) (len seed : Nat) : Res Machine :=
  let h := seed ^^^ (len * m % 2 ^ 64)
  let data := 0
  let end_ := data + 8 * (len / 8)
  match chunkLoop mem end_ fuel data { h := h, log := [] } with
  | .fault f => .fault f
  | .ok (data, s) =>
    let data2 := data
    match tailSwitch mem data2 len s with
    | .fault f => .fault f
    | .ok s => .ok { s with h := finalize s.h }

/-- The value returned by `murmur2(key, len, seed)`: `none` when the execution
faults.  The loop is given `len / 8` units of fuel; `chunkLoop` never asks for
more (see `chunkLoop_run`). -/
def murmur2 (mem : List (Fin 256)) (len seed : Nat) : Option Nat :=
  match murmur2Exec (len / 8) mem len seed with
  | .ok s => some s.h
  | .fault _ => none

/-- The ASCII bytes of the one-character input `a`. -/
def bytesA : List (Fin 256) := [97]

/-- The ASCII bytes of the input `abc`. -/
def bytesAbc : List (Fin 256) := [97, 98, 99]

/-- The thirteen ASCII bytes of the input `Hello, world!`. -/
def bytesHello : List (Fin 256) :=
  [72, 101, 108, 108, 111, 44, 32, 119, 111, 114, 108, 100, 33]

/-! ## The algorithm as the specification words it -/

/-- Little-endian value of a byte sequence. -/
def decodeLE : List (Fin 256) → Nat
  | [] => 0
  | b :: bs => b.val + 256 * decodeLE bs

/-- Specification, step 3: the mixing of one decoded chunk `k` into `h`. -/
def specMix (h k : Nat) : Nat :=
  let k1 := k * m % 2 ^ 64
  let k2 := k1 ^^^ (k1 >>> 47)
  let k3 := k2 * m % 2 ^ 64
  (h ^^^ k3) * m % 2 ^ 64

/-- Specification, step 3: the `n` consecutive eight-byte groups of `b`, in
order from the start, each decoded little-endian and mixed into `h`. -/
def specChunks (b : List (Fin 256)) (n h : Nat) : Nat :=
  (List.range n).foldl (fun acc j => specMix acc (decodeLE ((b.drop (8 * j)).take 8))) h

/-- Specification, step 4: for each offset `i` from `t - 1` down to `0`, XOR
trailing byte `i` (the byte of `b` at `base + i`) shifted left by `8 * i` bits
into `h`; then multiply by `m` once. -/
def specTail (b : List (Fin 256)) (base t h : Nat) : Nat :=
  ((List.range t).reverse.foldl
    (fun acc i => acc ^^^ ((b.getD (base + i) 0).val <<< (8 * i) % 2 ^ 64)) h) * m % 2 ^ 64

/-- Specification, step 5: `h ^= h >> r; h *= m; h ^= h >> r`. -/
def specFinal (h : Nat) : Nat :=
  let h1 := h ^^^ (h >>> 47)
  let h2 := h1 * m % 2 ^ 64
  h2 ^^^ (h2 >>> 47)

/-- Specification, steps 2 to 6, for the first `N` bytes of `b`. -/
def specHash (b : List (Fin 256)) (N seed : Nat) : Nat :=
  let h0 := seed ^^^ (N * m % 2 ^ 64)
  let h1 := specChunks b (N / 8) h0
  let h2 := specTail b (8 * (N / 8)) (N % 8) h1
  specFinal h2

/-- Specification: `hash64(data, seed)` for a byte sequence `b` of length `N`. -/
def hash64Spec (b : List (Fin 256)) (seed : Nat) : Nat :=
  specHash b b.length seed

/-- The accesses of `N / 8` loop iterations: iteration `j` loads the word at
byte offset `8 * j`. -/
def loopLog (N : Nat) : List Access :=
  (List.range (N / 8)).map (fun j => Access.word (8 * j))

/-- The accesses of the trailing `N % 8` bytes, from the last one down to the
first one after the chunks. -/
def tailLog (N : Nat) : List Access :=
  (List.range (N % 8)).reverse.map (fun i => Access.byte (8 * (N / 8) + i))

/-- All byte offsets touched by a log of accesses, in order. -/
def touched : List Access → List Nat
  | [] => []
  | a :: as => a.indices ++ touched as

/-! ## The canonical reference `MurmurHash64A`

Same constants, initialisation, chunk loop and closing statements as above; the
trailing switch ends in `case 1: h ^= data2[0]; h *= m;` and has no `default`
label, so a length that is a multiple of eight skips the switch body. -/

/-- The canonical trailing switch: `switch (len & 7) { case 7: ... case 1: ... }`. -/
def canonSwitch (mem : List (Fin 256)) (data2 len : Nat) (s : Machine) : Res Machine :=
  match len &&& 7 with
  | 7 => case7 mem data2 s
  | 6 => case6 mem data2 s
  | 5 => case5 mem data2 s
  | 4 => case4 mem data2 s
  | 3 => case3 mem data2 s
  | 2 => case2 mem data2 s
  | 1 => case1 mem data2 s
  | _ => .ok s

/-- The canonical function body, run with `fuel` loop iterations available. -/
def canonExec (fuel : Nat) (mem : List (Fin 256)) (len seed : Nat) : Res Machine :=
  let h := seed ^^^ (len * m % 2 ^ 64)
  match chunkLoop mem (8 * (len / 8)) fuel 0 { h := h, log := [] } with
  | .fault f => .fault f
  | .ok (data, s) =>
    match canonSwitch mem data len s with
    | .fault f => .fault f
    | .ok s => .ok { s with h := finalize s.h }

/-- The value returned by the canonical `MurmurHash64A(key, len, seed)`. -/
def MurmurHash64A (mem : List (Fin 256)) (len seed : Nat) : Option Nat :=
  match canonExec (len / 8) mem len seed with
  | .ok s => some s.h
  | .fault _ => none

/-- The value `sum over i < t of d i * 2 ^ (8 * i)`. -/
def byteSum (d : Nat → Nat) (t : Nat) : Nat :=
  ((List.range t).map (fun i => d i * 2 ^ (8 * i))).sum

/-- The multiplicative inverse of `m` modulo `2 ^ 64`. -/
def mInv : Nat := 0x5f7a0ea7e59b19bd

/-- The part of the loop body that depends on the chunk alone:
`k *= m; k ^= k >> r; k *= m`. -/
def mixK (k : Nat) : Nat :=
  let k1 := k * m % 2 ^ 64
  let k2 := k1 ^^^ (k1 >>> 47)
  k2 * m % 2 ^ 64

/-- The chunk value whose `mixK` is `y`. -/
def unmixK (y : Nat) : Nat :=
  let a := y * mInv % 2 ^ 64
  let b := a ^^^ (a >>> 47)
  b * mInv % 2 ^ 64

/-- The `n` little-endian bytes of `x`. -/
def encodeLE : Nat → Nat → List (Fin 256)
  | 0, _ => []
  | n + 1, x => ⟨x % 256, Nat.mod_lt _ (by decide)⟩ :: encodeLE n (x / 256)

/-- The value folded into the accumulator by the trailing `N % 8` bytes of
`b`: byte `i` after the chunks, times `2 ^ (8 * i)`, summed. -/
def tailSum (b : List (Fin 256)) (N : Nat) : Nat :=
  byteSum (fun i => (b.getD (8 * (N / 8) + i) 0).val) (N % 8)

/-- The byte sequence `b` with bit `k` of the byte at offset `i` flipped. -/
def flipBit (b : List (Fin 256)) (i k : Nat) : List (Fin 256) :=
  b.set i (Fin.ofNat ((b.getD i 0).val ^^^ 2 ^ k))

/-! ## Basic facts -/

theorem and_seven (len : Nat) : len &&& 7 = len % 8 :=
  Nat.and_pow_two_sub_one_eq_mod len 3

theorem m_lt : m < 2 ^ 64 := by decide

theorem mixChunk_eq_specMix (h k : Nat) : mixChunk h k = specMix h k := rfl

theorem finalize_eq_specFinal (h : Nat) : finalize h = specFinal h := rfl

theorem load8_of_lt (mem : List (Fin 256)) (data2 i : Nat) (hlt : data2 + i < mem.length) :
    load8 mem data2 i = some (mem.getD (data2 + i) 0).val := by
  simp [load8, List.getD, List.getElem?_eq_getElem hlt]

theorem loadLE_eq_decodeLE (mem : List (Fin 256)) (n p : Nat) (hle : p + n ≤ mem.length) :
    loadLE mem p n = some (decodeLE ((mem.drop p).take n)) := by
  induction n generalizing p with
  | zero => simp [loadLE, decodeLE]
  | succ n ih =>
    have hp : p < mem.length := by omega
    have ih1 := ih (p + 1) (by omega)
    rw [List.drop_eq_getElem_cons hp]
    simp only [loadLE, List.getElem?_eq_getElem hp, ih1, List.take_succ_cons, decodeLE]

theorem load64_eq_decodeLE (mem : List (Fin 256)) (p : Nat) (hle : p + 8 ≤ mem.length) :
    load64 mem p = some (decodeLE ((mem.drop p).take 8)) :=
  loadLE_eq_decodeLE mem 8 p hle

/-! ## The chunk loop -/

theorem chunkLoop_done (mem : List (Fin 256)) (e fuel : Nat) (s : Machine) :
    chunkLoop mem e fuel e s = .ok (e, s) := by
  unfold chunkLoop
  simp

theorem chunkLoop_step (mem : List (Fin 256)) (e fuel d k : Nat) (s : Machine)
    (hne : d ≠ e) (hk : load64 mem d = some k) :
    chunkLoop mem e (fuel + 1) d s =
      chunkLoop mem e fuel (d + 8)
        { h := mixChunk s.h k, log := s.log ++ [Access.word d] } := by
  rw [chunkLoop]
  simp [hne, hk]

theorem chunkLoop_run (mem : List (Fin 256)) (k : Nat) :
    ∀ (j fuel : Nat) (s : Machine), k ≤ fuel → 8 * (j + k) ≤ mem.length →
      chunkLoop mem (8 * (j + k)) fuel (8 * j) s =
        .ok (8 * (j + k),
          { h := (List.range' j k).foldl
              (fun acc i => specMix acc (decodeLE ((mem.drop (8 * i)).take 8))) s.h,
            log := s.log ++ (List.range' j k).map (fun i => Access.word (8 * i)) }) := by
  induction k with
  | zero =>
    intro j fuel s _ _
    simp [chunkLoop_done]
  | succ k ih =>
    intro j fuel s hfuel hlen
    obtain ⟨fuel, rfl⟩ : ∃ f, fuel = f + 1 := ⟨fuel - 1, by omega⟩
    have hne : 8 * j ≠ 8 * (j + (k + 1)) := by omega
    have hload := load64_eq_decodeLE mem (8 * j) (by omega)
    rw [chunkLoop_step mem _ fuel _ _ s hne hload]
    have h8 : 8 * j + 8 = 8 * (j + 1) := by omega
    have hjk : j + (k + 1) = (j + 1) + k := by omega
    rw [h8, hjk, ih (j + 1) fuel _ (by omega) (by omega)]
    simp [List.range'_succ, mixChunk_eq_specMix, List.append_assoc]

/-! ## The trailing switch -/

theorem range_rev_cases :
    (List.range 0).reverse = [] ∧ (List.range 1).reverse = [0] ∧
    (List.range 2).reverse = [1, 0] ∧ (List.range 3).reverse = [2, 1, 0] ∧
    (List.range 4).reverse = [3, 2, 1, 0] ∧ (List.range 5).reverse = [4, 3, 2, 1, 0] ∧
    (List.range 6).reverse = [5, 4, 3, 2, 1, 0] ∧
    (List.range 7).reverse = [6, 5, 4, 3, 2, 1, 0] := by
  decide

theorem tailSwitch_run (mem : List (Fin 256)) (data2 len : Nat) (s : Machine)
    (hb : data2 + len % 8 ≤ mem.length) :
    tailSwitch mem data2 len s =
      .ok { h := specTail mem data2 (len % 8) s.h,
            log := s.log ++
              (List.range (len % 8)).reverse.map (fun i => Access.byte (data2 + i)) } := by
  unfold tailSwitch
  rw [and_seven]
  have ht : len % 8 < 8 := Nat.mod_lt _ (by decide)
  obtain ⟨r0, r1, r2, r3, r4, r5, r6, r7⟩ := range_rev_cases
  generalize len % 8 = t at hb ht
  interval_cases t
  · simp [caseDefault, specTail]
  · simp [case1, caseArm, caseDefault, specTail, r1, load8_of_lt mem data2 0 (by omega)]
  · simp [case2, case1, caseArm, caseDefault, specTail, r2,
      load8_of_lt mem data2 0 (by omega), load8_of_lt mem data2 1 (by omega)]
  · simp [case3, case2, case1, caseArm, caseDefault, specTail, r3,
      load8_of_lt mem data2 0 (by omega), load8_of_lt mem data2 1 (by omega),
      load8_of_lt mem data2 2 (by omega)]
  · simp [case4, case3, case2, case1, caseArm, caseDefault, specTail, r4,
      load8_of_lt mem data2 0 (by omega), load8_of_lt mem data2 1 (by omega),
      load8_of_lt mem data2 2 (by omega), load8_of_lt mem data2 3 (by omega)]
  · simp [case5, case4, case3, case2, case1, caseArm, caseDefault, specTail, r5,
      load8_of_lt mem data2 0 (by omega), load8_of_lt mem data2 1 (by omega),
      load8_of_lt mem data2 2 (by omega), load8_of_lt mem data2 3 (by omega),
      load8_of_lt mem data2 4 (by omega)]
  · simp [case6, case5, case4, case3, case2, case1, caseArm, caseDefault, specTail, r6,
      load8_of_lt mem data2 0 (by omega), load8_of_lt mem data2 1 (by omega),
      load8_of_lt mem data2 2 (by omega), load8_of_lt mem data2 3 (by omega),
      load8_of_lt mem data2 4 (by omega), load8_of_lt mem data2 5 (by omega)]
  · simp [case7, case6, case5, case4, case3, case2, case1, caseArm, caseDefault, specTail, r7,
      load8_of_lt mem data2 0 (by omega), load8_of_lt mem data2 1 (by omega),
      load8_of_lt mem data2 2 (by omega), load8_of_lt mem data2 3 (by omega),
      load8_of_lt mem data2 4 (by omega), load8_of_lt mem data2 5 (by omega),
      load8_of_lt mem data2 6 (by omega)]

/-! ## The whole function -/

theorem murmur2Exec_run (mem : List (Fin 256)) (len seed fuel : Nat)
    (hlen : len ≤ mem.length) (hfuel : len / 8 ≤ fuel) :
    murmur2Exec fuel mem len seed =
      .ok { h := specHash mem len seed, log := loopLog len ++ tailLog len } := by
  have hdm := Nat.div_add_mod len 8
  have hloop := chunkLoop_run mem (len / 8) 0 fuel
    { h := seed ^^^ (len * m % 2 ^ 64), log := [] } hfuel (by omega)
  simp only [Nat.zero_add, Nat.mul_zero, List.nil_append] at hloop
  unfold murmur2Exec
  simp only [Nat.zero_add]
  rw [hloop]
  simp only
  rw [tailSwitch_run mem (8 * (len / 8)) len _ (by omega)]
  simp [specHash, specChunks, loopLog, tailLog, List.range_eq_range', finalize_eq_specFinal]

theorem murmur2_eq_specHash (mem : List (Fin 256)) (len seed : Nat)
    (hlen : len ≤ mem.length) :
    murmur2 mem len seed = some (specHash mem len seed) := by
  unfold murmur2
  rw [murmur2Exec_run mem len seed (len / 8) hlen (Nat.le_refl _)]

theorem touched_append (l1 l2 : List Access) :
    touched (l1 ++ l2) = touched l1 ++ touched l2 := by
  induction l1 with
  | nil => rfl
  | cons a l1 ih => simp [touched, ih]

theorem touched_words (q : Nat) :
    touched ((List.range q).map (fun j => Access.word (8 * j))) = List.range (8 * q) := by
  induction q with
  | zero => rfl
  | succ q ih =>
    rw [List.range_succ, List.map_append, touched_append, ih]
    have h8 : 8 * (q + 1) = 8 * q + 8 := by omega
    rw [h8, List.range_add]
    simp [touched, Access.indices]

theorem touched_bytes (l : List Nat) (base : Nat) :
    touched (l.map (fun i => Access.byte (base + i))) = l.map (fun i => base + i) := by
  induction l with
  | nil => rfl
  | cons a l ih => simp [touched, Access.indices, ih]

theorem touched_loopLog (N : Nat) : touched (loopLog N) = List.range (8 * (N / 8)) :=
  touched_words (N / 8)

theorem touched_tailLog (N : Nat) :
    touched (tailLog N) = (List.range' (8 * (N / 8)) (N % 8)).reverse := by
  unfold tailLog
  rw [touched_bytes, List.range'_eq_map_range, List.map_reverse]

theorem touched_lt (N i : Nat) (hi : i ∈ touched (loopLog N ++ tailLog N)) : i < N := by
  have hdm := Nat.div_add_mod N 8
  rw [touched_append, touched_loopLog, touched_tailLog] at hi
  simp only [List.mem_append, List.mem_range, List.mem_reverse, List.mem_range'_1] at hi
  omega

/-! ## Dependence on memory -/

theorem chunkLoop_zero (mem : List (Fin 256)) (e d : Nat) (s : Machine) (hne : d ≠ e) :
    chunkLoop mem e 0 d s = .fault .outOfFuel := by
  rw [chunkLoop]
  simp [hne]

theorem chunkLoop_succ (mem : List (Fin 256)) (e fuel d : Nat) (s : Machine) (hne : d ≠ e) :
    chunkLoop mem e (fuel + 1) d s =
      match load64 mem d with
      | none => .fault .outOfBounds
      | some k =>
        chunkLoop mem e fuel (d + 8)
          { h := mixChunk s.h k, log := s.log ++ [Access.word d] } := by
  rw [chunkLoop]
  simp [hne]

theorem chunkLoop_exit (mem : List (Fin 256)) (e : Nat) :
    ∀ (fuel d : Nat) (s : Machine) (d1 : Nat) (s1 : Machine),
      chunkLoop mem e fuel d s = .ok (d1, s1) → d1 = e := by
  intro fuel
  induction fuel with
  | zero =>
    intro d s d1 s1 hrun
    by_cases hde : d = e
    · subst hde
      rw [chunkLoop_done] at hrun
      injection hrun with hp
      injection hp with h1 _
      exact h1.symm
    · rw [chunkLoop_zero mem e d s hde] at hrun
      cases hrun
  | succ fuel ih =>
    intro d s d1 s1 hrun
    by_cases hde : d = e
    · subst hde
      rw [chunkLoop_done] at hrun
      injection hrun with hp
      injection hp with h1 _
      exact h1.symm
    · rw [chunkLoop_succ mem e fuel d s hde] at hrun
      cases hk : load64 mem d with
      | none => rw [hk] at hrun; cases hrun
      | some k =>
        rw [hk] at hrun
        exact ih _ _ _ _ hrun

theorem loadLE_congr (m1 m2 : List (Fin 256)) (len : Nat)
    (hag : ∀ i, i < len → m1[i]? = m2[i]?) (n : Nat) :
    ∀ p, p + n ≤ len → loadLE m1 p n = loadLE m2 p n := by
  induction n with
  | zero => intro p _; rfl
  | succ n ih =>
    intro p hp
    simp only [loadLE, hag p (by omega), ih (p + 1) (by omega)]

theorem load8_congr (m1 m2 : List (Fin 256)) (len : Nat)
    (hag : ∀ i, i < len → m1[i]? = m2[i]?) (data2 i : Nat) (hi : data2 + i < len) :
    load8 m1 data2 i = load8 m2 data2 i := by
  simp only [load8, hag _ hi]

theorem chunkLoop_congr (m1 m2 : List (Fin 256)) (len : Nat)
    (hag : ∀ i, i < len → m1[i]? = m2[i]?) (k : Nat) :
    ∀ (j fuel : Nat) (s : Machine), 8 * (j + k) ≤ len →
      chunkLoop m1 (8 * (j + k)) fuel (8 * j) s = chunkLoop m2 (8 * (j + k)) fuel (8 * j) s := by
  induction k with
  | zero =>
    intro j fuel s _
    simp [chunkLoop_done]
  | succ k ih =>
    intro j fuel s hle
    have hne : 8 * j ≠ 8 * (j + (k + 1)) := by omega
    cases fuel with
    | zero => rw [chunkLoop_zero _ _ _ _ hne, chunkLoop_zero _ _ _ _ hne]
    | succ fuel =>
      rw [chunkLoop_succ _ _ _ _ _ hne, chunkLoop_succ _ _ _ _ _ hne]
      have hld : load64 m1 (8 * j) = load64 m2 (8 * j) :=
        loadLE_congr m1 m2 len hag 8 (8 * j) (by omega)
      rw [hld]
      cases load64 m2 (8 * j) with
      | none => rfl
      | some v =>
        have h8 : 8 * j + 8 = 8 * (j + 1) := by omega
        have hjk : j + (k + 1) = (j + 1) + k := by omega
        simp only [h8, hjk]
        exact ih (j + 1) fuel _ (by omega)

theorem tailSwitch_congr (m1 m2 : List (Fin 256)) (len0 : Nat)
    (hag : ∀ i, i < len0 → m1[i]? = m2[i]?) (data2 len : Nat) (s : Machine)
    (hb : data2 + len % 8 ≤ len0) :
    tailSwitch m1 data2 len s = tailSwitch m2 data2 len s := by
  unfold tailSwitch
  rw [and_seven]
  have ht : len % 8 < 8 := Nat.mod_lt _ (by decide)
  generalize len % 8 = t at hb ht
  have hl : ∀ i, i < t → load8 m1 data2 i = load8 m2 data2 i :=
    fun i hi => load8_congr m1 m2 len0 hag data2 i (by omega)
  interval_cases t
  · rfl
  · simp only [case1, caseArm, hl 0 (by omega)]
  · simp only [case2, case1, caseArm, hl 0 (by omega), hl 1 (by omega)]
  · simp only [case3, case2, case1, caseArm, hl 0 (by omega), hl 1 (by omega),
      hl 2 (by omega)]
  · simp only [case4, case3, case2, case1, caseArm, hl 0 (by omega), hl 1 (by omega),
      hl 2 (by omega), hl 3 (by omega)]
  · simp only [case5, case4, case3, case2, case1, caseArm, hl 0 (by omega), hl 1 (by omega),
      hl 2 (by omega), hl 3 (by omega), hl 4 (by omega)]
  · simp only [case6, case5, case4, case3, case2, case1, caseArm, hl 0 (by omega),
      hl 1 (by omega), hl 2 (by omega), hl 3 (by omega), hl 4 (by omega), hl 5 (by omega)]
  · simp only [case7, case6, case5, case4, case3, case2, case1, caseArm, hl 0 (by omega),
      hl 1 (by omega), hl 2 (by omega), hl 3 (by omega), hl 4 (by omega), hl 5 (by omega),
      hl 6 (by omega)]

theorem murmur2Exec_congr (m1 m2 : List (Fin 256)) (len : Nat)
    (hag : ∀ i, i < len → m1[i]? = m2[i]?) (fuel seed : Nat) :
    murmur2Exec fuel m1 len seed = murmur2Exec fuel m2 len seed := by
  have hdm := Nat.div_add_mod len 8
  have hloop := chunkLoop_congr m1 m2 len hag (len / 8) 0 fuel
    { h := seed ^^^ (len * m % 2 ^ 64), log := [] } (by omega)
  simp only [Nat.zero_add, Nat.mul_zero] at hloop
  unfold murmur2Exec
  simp only [Nat.zero_add]
  rw [hloop]
  cases hrun : chunkLoop m2 (8 * (len / 8)) fuel 0
      { h := seed ^^^ (len * m % 2 ^ 64), log := [] } with
  | fault f => rfl
  | ok p =>
    obtain ⟨d1, s1⟩ := p
    have hd := chunkLoop_exit m2 _ _ _ _ _ _ hrun
    subst hd
    simp only
    rw [tailSwitch_congr m1 m2 len hag (8 * (len / 8)) len s1 (by omega)]

theorem agree_of_take_eq (m1 m2 : List (Fin 256)) (len : Nat)
    (hpre : m1.take len = m2.take len) : ∀ i, i < len → m1[i]? = m2[i]? := by
  intro i hi
  have h1 : (m1.take len)[i]? = m1[i]? := by rw [List.getElem?_take, if_pos hi]
  have h2 : (m2.take len)[i]? = m2[i]? := by rw [List.getElem?_take, if_pos hi]
  rw [← h1, ← h2, hpre]

/-! ## Bit-level facts -/

theorem xor_eq_add_of_lt (hi lo k : Nat) (hlo : lo < 2 ^ k) :
    (hi * 2 ^ k) ^^^ lo = hi * 2 ^ k + lo := by
  apply Nat.eq_of_testBit_eq
  intro j
  rw [Nat.mul_comm hi, Nat.testBit_mul_pow_two_add hi hlo j, Nat.testBit_xor,
    Nat.testBit_mul_pow_two]
  by_cases hj : j < k
  · have : ¬ j ≥ k := by omega
    simp [hj, this]
  · have hge : j ≥ k := by omega
    have hlo2 : lo < 2 ^ j := Nat.lt_of_lt_of_le hlo (Nat.pow_le_pow_right (by decide) hge)
    simp [hj, hge, Nat.testBit_lt_two_pow hlo2]

theorem byteSum_succ (d : Nat → Nat) (t : Nat) :
    byteSum d (t + 1) = d t * 2 ^ (8 * t) + byteSum d t := by
  simp [byteSum, List.range_succ, Nat.add_comm]

theorem byteSum_lt (d : Nat → Nat) (hd : ∀ i, d i < 256) (t : Nat) :
    byteSum d t < 2 ^ (8 * t) := by
  induction t with
  | zero => simp [byteSum]
  | succ t ih =>
    rw [byteSum_succ]
    have h1 : d t * 2 ^ (8 * t) ≤ 255 * 2 ^ (8 * t) :=
      Nat.mul_le_mul_right _ (by have := hd t; omega)
    have h2 : 2 ^ (8 * (t + 1)) = 256 * 2 ^ (8 * t) := by
      rw [show 8 * (t + 1) = 8 + 8 * t by omega, Nat.pow_add]
    omega

theorem foldl_xor_eq_byteSum (d : Nat → Nat) (hd : ∀ i, d i < 256) (t : Nat) (ht : t ≤ 8) :
    ∀ h : Nat, (List.range t).reverse.foldl
        (fun acc i => acc ^^^ (d i <<< (8 * i) % 2 ^ 64)) h = h ^^^ byteSum d t := by
  induction t with
  | zero => intro h; simp [byteSum]
  | succ t ih =>
    intro h
    rw [List.range_succ, List.reverse_append, List.reverse_singleton, List.singleton_append,
      List.foldl_cons, ih (by omega), byteSum_succ, Nat.xor_assoc]
    have hlt : d t <<< (8 * t) < 2 ^ 64 := by
      rw [Nat.shiftLeft_eq]
      have h1 : d t * 2 ^ (8 * t) < 256 * 2 ^ (8 * t) :=
        Nat.mul_lt_mul_of_pos_right (hd t) (Nat.two_pow_pos _)
      have h2 : 256 * 2 ^ (8 * t) = 2 ^ (8 * (t + 1)) := by
        rw [show 8 * (t + 1) = 8 + 8 * t by omega, Nat.pow_add]
      have h3 : 2 ^ (8 * (t + 1)) ≤ 2 ^ 64 := Nat.pow_le_pow_right (by decide) (by omega)
      omega
    rw [Nat.mod_eq_of_lt hlt, Nat.shiftLeft_eq, xor_eq_add_of_lt _ _ _ (byteSum_lt d hd t)]

theorem specTail_eq_byteSum (b : List (Fin 256)) (base t h : Nat) (ht : t ≤ 8) :
    specTail b base t h =
      (h ^^^ byteSum (fun i => (b.getD (base + i) 0).val) t) * m % 2 ^ 64 := by
  unfold specTail
  rw [foldl_xor_eq_byteSum (fun i => (b.getD (base + i) 0).val) (fun i => Fin.isLt _) t ht]

theorem shiftXor_lt (x : Nat) (hx : x < 2 ^ 64) : x ^^^ (x >>> 47) < 2 ^ 64 := by
  apply Nat.xor_lt_two_pow hx
  rw [Nat.shiftRight_eq_div_pow]
  exact Nat.lt_of_le_of_lt (Nat.div_le_self _ _) hx

theorem shiftXor_involutive (x : Nat) (hx : x < 2 ^ 64) :
    (x ^^^ (x >>> 47)) ^^^ ((x ^^^ (x >>> 47)) >>> 47) = x := by
  apply Nat.eq_of_testBit_eq
  intro j
  have hhi : x.testBit (47 + (47 + j)) = false := by
    apply Nat.testBit_lt_two_pow
    exact Nat.lt_of_lt_of_le hx (Nat.pow_le_pow_right (by decide) (by omega))
  simp only [Nat.testBit_xor, Nat.testBit_shiftRight, hhi]
  cases x.testBit j <;> cases x.testBit (47 + j) <;> rfl

theorem m_mul_mInv : m * mInv % 2 ^ 64 = 1 := by decide

theorem mul_m_mInv (x : Nat) (hx : x < 2 ^ 64) : (x * m % 2 ^ 64) * mInv % 2 ^ 64 = x := by
  rw [Nat.mod_mul_mod, Nat.mul_assoc, Nat.mul_mod, m_mul_mInv, Nat.mul_one, Nat.mod_mod,
    Nat.mod_eq_of_lt hx]

theorem mul_mInv_m (x : Nat) (hx : x < 2 ^ 64) : (x * mInv % 2 ^ 64) * m % 2 ^ 64 = x := by
  rw [Nat.mod_mul_mod, Nat.mul_assoc, Nat.mul_comm mInv m, Nat.mul_mod, m_mul_mInv,
    Nat.mul_one, Nat.mod_mod, Nat.mod_eq_of_lt hx]

theorem mixK_lt (k : Nat) : mixK k < 2 ^ 64 :=
  Nat.mod_lt _ (Nat.two_pow_pos 64)

theorem unmixK_lt (y : Nat) : unmixK y < 2 ^ 64 :=
  Nat.mod_lt _ (Nat.two_pow_pos 64)

theorem mixK_unmixK (y : Nat) (hy : y < 2 ^ 64) : mixK (unmixK y) = y := by
  unfold mixK unmixK
  have ha : y * mInv % 2 ^ 64 < 2 ^ 64 := Nat.mod_lt _ (Nat.two_pow_pos 64)
  have hb := shiftXor_lt _ ha
  simp only
  rw [mul_mInv_m _ hb, shiftXor_involutive _ ha, mul_mInv_m _ hy]

theorem unmixK_mixK (k : Nat) (hk : k < 2 ^ 64) : unmixK (mixK k) = k := by
  unfold mixK unmixK
  have ha : k * m % 2 ^ 64 < 2 ^ 64 := Nat.mod_lt _ (Nat.two_pow_pos 64)
  have hb := shiftXor_lt _ ha
  simp only
  rw [mul_m_mInv _ hb, shiftXor_involutive _ ha, mul_m_mInv _ hk]

theorem specMix_eq_mixK (h k : Nat) : specMix h k = (h ^^^ mixK k) * m % 2 ^ 64 := rfl

theorem encodeLE_length (n x : Nat) : (encodeLE n x).length = n := by
  induction n generalizing x with
  | zero => rfl
  | succ n ih => simp [encodeLE, ih]

theorem decodeLE_encodeLE (n : Nat) : ∀ x, x < 256 ^ n → decodeLE (encodeLE n x) = x := by
  induction n with
  | zero => intro x hx; simp at hx; simp [encodeLE, decodeLE, hx]
  | succ n ih =>
    intro x hx
    have hdiv : x / 256 < 256 ^ n := by
      rw [Nat.div_lt_iff_lt_mul (by decide)]
      rw [Nat.pow_succ] at hx
      exact hx
    simp only [encodeLE, decodeLE, ih _ hdiv]
    omega

theorem decodeLE_lt (l : List (Fin 256)) : decodeLE l < 256 ^ l.length := by
  induction l with
  | nil => simp [decodeLE]
  | cons b l ih =>
    simp only [decodeLE, List.length_cons, Nat.pow_succ]
    have := b.isLt
    omega

theorem chunkLoop_fuel (mem : List (Fin 256)) (k : Nat) :
    ∀ (j fuel : Nat) (s : Machine), k ≤ fuel →
      chunkLoop mem (8 * (j + k)) fuel (8 * j) s ≠ .fault .outOfFuel := by
  induction k with
  | zero =>
    intro j fuel s _
    simp [chunkLoop_done]
  | succ k ih =>
    intro j fuel s hfuel
    obtain ⟨fuel, rfl⟩ : ∃ f, fuel = f + 1 := ⟨fuel - 1, by omega⟩
    have hne : 8 * j ≠ 8 * (j + (k + 1)) := by omega
    rw [chunkLoop_succ _ _ _ _ _ hne]
    cases load64 mem (8 * j) with
    | none => simp
    | some v =>
      have h8 : 8 * j + 8 = 8 * (j + 1) := by omega
      have hjk : j + (k + 1) = (j + 1) + k := by omega
      simp only [h8, hjk]
      exact ih (j + 1) fuel _ (by omega)

/-! ## Two-chunk inputs -/

theorem specHash_sixteen (b : List (Fin 256)) (seed : Nat) :
    specHash b 16 seed =
      specFinal (specMix (specMix (seed ^^^ (16 * m % 2 ^ 64)) (decodeLE (b.take 8)))
        (decodeLE ((b.drop 8).take 8)) * m % 2 ^ 64) := rfl

theorem specMix_lt (h k : Nat) : specMix h k < 2 ^ 64 :=
  Nat.mod_lt _ (Nat.two_pow_pos 64)

theorem specMix_steer (h1 h2 k : Nat) (h1lt : h1 < 2 ^ 64) (h2lt : h2 < 2 ^ 64) :
    specMix h2 (unmixK (h2 ^^^ (h1 ^^^ mixK k))) = specMix h1 k := by
  have ht : h2 ^^^ (h1 ^^^ mixK k) < 2 ^ 64 :=
    Nat.xor_lt_two_pow h2lt (Nat.xor_lt_two_pow h1lt (mixK_lt k))
  rw [specMix_eq_mixK, specMix_eq_mixK, mixK_unmixK _ ht, ← Nat.xor_assoc, Nat.xor_self,
    Nat.zero_xor]

theorem second_chunk_collides (seed : Nat) (b c1 : List (Fin 256))
    (hb : b.length = 16) (hc : c1.length = 8) :
    ∃ (c2 : List (Fin 256)) (v : Nat), c2.length = 8 ∧
      murmur2 b 16 seed = some v ∧ murmur2 (c1 ++ c2) 16 seed = some v ∧
      (c1 ≠ b.take 8 → c1 ++ c2 ≠ b) := by
  let h0 := seed ^^^ (16 * m % 2 ^ 64)
  let g1 := specMix h0 (decodeLE (b.take 8))
  let g2 := specMix h0 (decodeLE c1)
  let k2 := decodeLE ((b.drop 8).take 8)
  let c2 := encodeLE 8 (unmixK (g2 ^^^ (g1 ^^^ mixK k2)))
  have hc2 : c2.length = 8 := encodeLE_length 8 _
  have hdec : decodeLE c2 = unmixK (g2 ^^^ (g1 ^^^ mixK k2)) :=
    decodeLE_encodeLE 8 _ (unmixK_lt _)
  refine ⟨c2, specHash b 16 seed, hc2, ?_, ?_, ?_⟩
  · exact murmur2_eq_specHash b 16 seed (by omega)
  · rw [murmur2_eq_specHash (c1 ++ c2) 16 seed (by simp [hc, hc2])]
    rw [specHash_sixteen, specHash_sixteen, List.take_left' hc, List.drop_left' hc,
      List.take_of_length_le (by omega), hdec]
    rw [specMix_steer g1 g2 k2 (specMix_lt _ _) (specMix_lt _ _)]
  · intro hne heq
    apply hne
    rw [← heq, List.take_left' hc]

/-! ## Invertibility of the steps on 64-bit words -/

theorem mulM_inj (x y : Nat) (hx : x < 2 ^ 64) (hy : y < 2 ^ 64)
    (h : x * m % 2 ^ 64 = y * m % 2 ^ 64) : x = y := by
  have h2 : (x * m % 2 ^ 64) * mInv % 2 ^ 64 = (y * m % 2 ^ 64) * mInv % 2 ^ 64 := by rw [h]
  rwa [mul_m_mInv x hx, mul_m_mInv y hy] at h2

theorem shiftXor_inj (x y : Nat) (hx : x < 2 ^ 64) (hy : y < 2 ^ 64)
    (h : x ^^^ (x >>> 47) = y ^^^ (y >>> 47)) : x = y :=
  calc x = (x ^^^ (x >>> 47)) ^^^ ((x ^^^ (x >>> 47)) >>> 47) :=
        (shiftXor_involutive x hx).symm
    _ = (y ^^^ (y >>> 47)) ^^^ ((y ^^^ (y >>> 47)) >>> 47) := by rw [h]
    _ = y := shiftXor_involutive y hy

theorem specFinal_lt (h : Nat) : specFinal h < 2 ^ 64 :=
  shiftXor_lt _ (Nat.mod_lt _ (Nat.two_pow_pos 64))

theorem specFinal_inj (x y : Nat) (hx : x < 2 ^ 64) (hy : y < 2 ^ 64)
    (h : specFinal x = specFinal y) : x = y := by
  unfold specFinal at h
  simp only at h
  have hW : ∀ z : Nat, z % 2 ^ 64 < 2 ^ 64 := fun z => Nat.mod_lt _ (Nat.two_pow_pos 64)
  have h1 := shiftXor_inj _ _ (hW _) (hW _) h
  have h2 := mulM_inj _ _ (shiftXor_lt x hx) (shiftXor_lt y hy) h1
  exact shiftXor_inj x y hx hy h2

theorem tailFinal_inj (a1 a2 s1 s2 : Nat) (ha1 : a1 < 2 ^ 64) (ha2 : a2 < 2 ^ 64)
    (hs1 : s1 < 2 ^ 64) (hs2 : s2 < 2 ^ 64)
    (h : specFinal ((a1 ^^^ s1) * m % 2 ^ 64) = specFinal ((a2 ^^^ s2) * m % 2 ^ 64)) :
    a1 ^^^ s1 = a2 ^^^ s2 := by
  have hW : ∀ z : Nat, z % 2 ^ 64 < 2 ^ 64 := fun z => Nat.mod_lt _ (Nat.two_pow_pos 64)
  have h1 := specFinal_inj _ _ (hW _) (hW _) h
  exact mulM_inj _ _ (Nat.xor_lt_two_pow ha1 hs1) (Nat.xor_lt_two_pow ha2 hs2) h1

theorem specMix_inj_left (h1 h2 k : Nat) (hh1 : h1 < 2 ^ 64) (hh2 : h2 < 2 ^ 64)
    (h : specMix h1 k = specMix h2 k) : h1 = h2 := by
  rw [specMix_eq_mixK, specMix_eq_mixK] at h
  have hx := mulM_inj _ _ (Nat.xor_lt_two_pow hh1 (mixK_lt k))
    (Nat.xor_lt_two_pow hh2 (mixK_lt k)) h
  exact Nat.xor_left_inj.mp hx

theorem specMix_inj_right (h k1 k2 : Nat) (hh : h < 2 ^ 64) (hk1 : k1 < 2 ^ 64)
    (hk2 : k2 < 2 ^ 64) (heq : specMix h k1 = specMix h k2) : k1 = k2 := by
  rw [specMix_eq_mixK, specMix_eq_mixK] at heq
  have hx := mulM_inj _ _ (Nat.xor_lt_two_pow hh (mixK_lt k1))
    (Nat.xor_lt_two_pow hh (mixK_lt k2)) heq
  have hm : mixK k1 = mixK k2 := Nat.xor_right_inj.mp hx
  rw [← unmixK_mixK k1 hk1, ← unmixK_mixK k2 hk2, hm]

/-! ## The chunks as a function of the accumulator and of the bytes -/

theorem specChunks_succ (b : List (Fin 256)) (n h : Nat) :
    specChunks b (n + 1) h =
      specMix (specChunks b n h) (decodeLE ((b.drop (8 * n)).take 8)) := by
  simp [specChunks, List.range_succ, List.foldl_append]

theorem specChunks_lt (b : List (Fin 256)) (n h : Nat) (hh : h < 2 ^ 64) :
    specChunks b n h < 2 ^ 64 := by
  cases n with
  | zero => simpa [specChunks] using hh
  | succ n => rw [specChunks_succ]; exact specMix_lt _ _

theorem specChunks_inj (b : List (Fin 256)) (n h1 h2 : Nat) (hh1 : h1 < 2 ^ 64)
    (hh2 : h2 < 2 ^ 64) (h : specChunks b n h1 = specChunks b n h2) : h1 = h2 := by
  induction n with
  | zero => simpa [specChunks] using h
  | succ n ih =>
    rw [specChunks_succ, specChunks_succ] at h
    exact ih (specMix_inj_left _ _ _ (specChunks_lt b n h1 hh1) (specChunks_lt b n h2 hh2) h)

theorem slice_congr (b1 b2 : List (Fin 256)) (p n : Nat)
    (hag : ∀ i, p ≤ i → i < p + n → b1[i]? = b2[i]?) :
    (b1.drop p).take n = (b2.drop p).take n := by
  apply List.ext_getElem?
  intro k
  rw [List.getElem?_take, List.getElem?_take]
  by_cases hk : k < n
  · rw [if_pos hk, if_pos hk, List.getElem?_drop, List.getElem?_drop]
    exact hag (p + k) (by omega) (by omega)
  · rw [if_neg hk, if_neg hk]

theorem specChunks_congr (b1 b2 : List (Fin 256)) (n h : Nat)
    (hag : ∀ i, i < 8 * n → b1[i]? = b2[i]?) :
    specChunks b1 n h = specChunks b2 n h := by
  induction n with
  | zero => simp [specChunks]
  | succ n ih =>
    rw [specChunks_succ, specChunks_succ, ih (fun i hi => hag i (by omega)),
      slice_congr b1 b2 (8 * n) 8 (fun i _ hi => hag i (by omega))]

theorem chunk_lt (b : List (Fin 256)) (p : Nat) :
    decodeLE ((b.drop p).take 8) < 2 ^ 64 := by
  have h1 := decodeLE_lt ((b.drop p).take 8)
  have h2 : ((b.drop p).take 8).length ≤ 8 := by
    rw [List.length_take]; exact Nat.min_le_left _ _
  have h3 : 256 ^ ((b.drop p).take 8).length ≤ 256 ^ 8 :=
    Nat.pow_le_pow_right (by decide) h2
  have h4 : (256 : Nat) ^ 8 = 2 ^ 64 := by decide
  omega

theorem decodeLE_inj (l1 : List (Fin 256)) :
    ∀ l2 : List (Fin 256), l1.length = l2.length → decodeLE l1 = decodeLE l2 → l1 = l2 := by
  induction l1 with
  | nil =>
    intro l2 hl _
    cases l2 with
    | nil => rfl
    | cons c l2 => simp at hl
  | cons a l1 ih =>
    intro l2 hl hd
    cases l2 with
    | nil => simp at hl
    | cons c l2 =>
      simp only [decodeLE] at hd
      have ha := a.isLt
      have hc := c.isLt
      have hv : a.val = c.val := by omega
      have hr : decodeLE l1 = decodeLE l2 := by omega
      have hl2 : l1.length = l2.length := by simpa using hl
      rw [Fin.ext hv, ih l2 hl2 hr]

/-! ## The hash as a function of the seed and of the bytes -/

theorem byteSum_congr (d1 d2 : Nat → Nat) (t : Nat) (h : ∀ i, i < t → d1 i = d2 i) :
    byteSum d1 t = byteSum d2 t := by
  induction t with
  | zero => simp [byteSum]
  | succ t ih =>
    rw [byteSum_succ, byteSum_succ, h t (by omega), ih (fun i hi => h i (by omega))]

theorem byteSum_inj (d1 d2 : Nat → Nat) (hd1 : ∀ i, d1 i < 256) (hd2 : ∀ i, d2 i < 256)
    (t : Nat) (h : byteSum d1 t = byteSum d2 t) : ∀ i, i < t → d1 i = d2 i := by
  induction t with
  | zero => intro i hi; omega
  | succ t ih =>
    rw [byteSum_succ, byteSum_succ] at h
    have l1 := byteSum_lt d1 hd1 t
    have l2 := byteSum_lt d2 hd2 t
    have hv : d1 t = d2 t := by
      rcases Nat.lt_trichotomy (d1 t) (d2 t) with hlt | heq | hgt
      · exfalso
        have hmul := Nat.mul_le_mul_right (2 ^ (8 * t)) (show d1 t + 1 ≤ d2 t from hlt)
        rw [Nat.add_mul, Nat.one_mul] at hmul
        omega
      · exact heq
      · exfalso
        have hmul := Nat.mul_le_mul_right (2 ^ (8 * t)) (show d2 t + 1 ≤ d1 t from hgt)
        rw [Nat.add_mul, Nat.one_mul] at hmul
        omega
    rw [hv] at h
    have hs : byteSum d1 t = byteSum d2 t := by omega
    intro i hi
    by_cases hit : i = t
    · rw [hit]; exact hv
    · exact ih hs i (by omega)

theorem tailSum_lt (b : List (Fin 256)) (N : Nat) : tailSum b N < 2 ^ 64 := by
  have h1 := byteSum_lt (fun i => (b.getD (8 * (N / 8) + i) 0).val) (fun i => Fin.isLt _) (N % 8)
  have h2 : N % 8 < 8 := Nat.mod_lt _ (by decide)
  have h3 : 2 ^ (8 * (N % 8)) ≤ 2 ^ 64 := Nat.pow_le_pow_right (by decide) (by omega)
  exact Nat.lt_of_lt_of_le h1 h3

theorem specHash_eq (b : List (Fin 256)) (N seed : Nat) :
    specHash b N seed =
      specFinal ((specChunks b (N / 8) (seed ^^^ (N * m % 2 ^ 64)) ^^^ tailSum b N) * m
        % 2 ^ 64) := by
  unfold specHash tailSum
  simp only
  rw [specTail_eq_byteSum _ _ _ _ (Nat.le_of_lt (Nat.mod_lt _ (by decide)))]

theorem specHash_lt (b : List (Fin 256)) (N seed : Nat) : specHash b N seed < 2 ^ 64 := by
  rw [specHash_eq]
  exact specFinal_lt _

theorem init_lt (seed N : Nat) (hs : seed < 2 ^ 64) : seed ^^^ (N * m % 2 ^ 64) < 2 ^ 64 :=
  Nat.xor_lt_two_pow hs (Nat.mod_lt _ (Nat.two_pow_pos 64))

theorem specHash_ne_of_xor_ne (b1 b2 : List (Fin 256)) (N1 N2 seed1 seed2 : Nat)
    (hs1 : seed1 < 2 ^ 64) (hs2 : seed2 < 2 ^ 64)
    (hne : specChunks b1 (N1 / 8) (seed1 ^^^ (N1 * m % 2 ^ 64)) ^^^ tailSum b1 N1 ≠
      specChunks b2 (N2 / 8) (seed2 ^^^ (N2 * m % 2 ^ 64)) ^^^ tailSum b2 N2) :
    specHash b1 N1 seed1 ≠ specHash b2 N2 seed2 := by
  rw [specHash_eq, specHash_eq]
  intro heq
  exact hne (tailFinal_inj _ _ _ _ (specChunks_lt _ _ _ (init_lt _ _ hs1))
    (specChunks_lt _ _ _ (init_lt _ _ hs2)) (tailSum_lt _ _) (tailSum_lt _ _) heq)

theorem specHash_seed_inj (b : List (Fin 256)) (N s1 s2 : Nat) (h1 : s1 < 2 ^ 64)
    (h2 : s2 < 2 ^ 64) (hne : s1 ≠ s2) : specHash b N s1 ≠ specHash b N s2 := by
  apply specHash_ne_of_xor_ne b b N N s1 s2 h1 h2
  intro heq
  have hA := Nat.xor_left_inj.mp heq
  have h0 := specChunks_inj b (N / 8) _ _ (init_lt _ _ h1) (init_lt _ _ h2) hA
  exact hne (Nat.xor_left_inj.mp h0)

theorem specChunks_ne_of_chunk (b1 b2 : List (Fin 256)) (h j : Nat) (hh : h < 2 ^ 64)
    (hpre : ∀ i, i < 8 * j → b1[i]? = b2[i]?)
    (hk : decodeLE ((b1.drop (8 * j)).take 8) ≠ decodeLE ((b2.drop (8 * j)).take 8))
    (hpost : ∀ i, 8 * j + 8 ≤ i → b1[i]? = b2[i]?) :
    ∀ d, specChunks b1 (j + 1 + d) h ≠ specChunks b2 (j + 1 + d) h := by
  intro d
  induction d with
  | zero =>
    rw [Nat.add_zero, specChunks_succ, specChunks_succ, specChunks_congr b1 b2 j h hpre]
    intro heq
    exact hk (specMix_inj_right _ _ _ (specChunks_lt _ _ _ hh) (chunk_lt _ _) (chunk_lt _ _)
      heq)
  | succ d ih =>
    rw [← Nat.add_assoc, specChunks_succ, specChunks_succ,
      slice_congr b1 b2 (8 * (j + 1 + d)) 8 (fun i hi _ => hpost i (by omega))]
    intro heq
    exact ih (specMix_inj_left _ _ _ (specChunks_lt _ _ _ hh) (specChunks_lt _ _ _ hh) heq)

theorem getD_congr (b1 b2 : List (Fin 256)) (i : Nat) (h : b1[i]? = b2[i]?) :
    b1.getD i 0 = b2.getD i 0 := by
  rw [List.getD_eq_getElem?_getD, List.getD_eq_getElem?_getD, h]

theorem getElem?_eq_of_getD (b1 b2 : List (Fin 256)) (i : Nat) (h1 : i < b1.length)
    (h2 : i < b2.length) (h : (b1.getD i 0).val = (b2.getD i 0).val) : b1[i]? = b2[i]? := by
  have e1 : b1.getD i 0 = b1[i] := by simp [List.getD, List.getElem?_eq_getElem h1]
  have e2 : b2.getD i 0 = b2[i] := by simp [List.getD, List.getElem?_eq_getElem h2]
  rw [List.getElem?_eq_getElem h1, List.getElem?_eq_getElem h2, ← e1, ← e2, Fin.ext h]

/-! ## Inputs that differ in one place -/

theorem slice_getElem? (b : List (Fin 256)) (p k : Nat) (hk : k < 8) :
    ((b.drop p).take 8)[k]? = b[p + k]? := by
  rw [List.getElem?_take, if_pos hk, List.getElem?_drop]

theorem specHash_ne_of_chunk_diff (seed : Nat) (b1 b2 : List (Fin 256)) (j : Nat)
    (hs : seed < 2 ^ 64) (hlen : b1.length = b2.length) (hne : b1 ≠ b2)
    (hj : j < b1.length / 8)
    (hout : ∀ i, (i < 8 * j ∨ 8 * j + 8 ≤ i) → b1[i]? = b2[i]?) :
    specHash b1 b1.length seed ≠ specHash b2 b2.length seed := by
  have hdm := Nat.div_add_mod b1.length 8
  have hk : decodeLE ((b1.drop (8 * j)).take 8) ≠ decodeLE ((b2.drop (8 * j)).take 8) := by
    intro heq
    have hl : ((b1.drop (8 * j)).take 8).length = ((b2.drop (8 * j)).take 8).length := by
      simp only [List.length_take, List.length_drop, hlen]
    have hsl := decodeLE_inj _ _ hl heq
    apply hne
    apply List.ext_getElem?
    intro n
    by_cases hn : n < 8 * j ∨ 8 * j + 8 ≤ n
    · exact hout n hn
    · have hn8 : n - 8 * j < 8 := by omega
      have e1 := slice_getElem? b1 (8 * j) (n - 8 * j) hn8
      have e2 := slice_getElem? b2 (8 * j) (n - 8 * j) hn8
      have hidx : 8 * j + (n - 8 * j) = n := by omega
      rw [hidx] at e1 e2
      rw [← e1, ← e2, hsl]
  rw [← hlen]
  apply specHash_ne_of_xor_ne b1 b2 _ _ seed seed hs hs
  have hS : tailSum b1 b1.length = tailSum b2 b1.length := by
    unfold tailSum
    apply byteSum_congr
    intro i _
    rw [getD_congr b1 b2 _ (hout _ (Or.inr (by omega)))]
  rw [hS]
  intro heq
  have hA := Nat.xor_left_inj.mp heq
  have hd : b1.length / 8 = j + 1 + (b1.length / 8 - (j + 1)) := by omega
  rw [hd] at hA
  exact specChunks_ne_of_chunk b1 b2 _ j (init_lt _ _ hs)
    (fun i hi => hout i (Or.inl hi)) hk (fun i hi => hout i (Or.inr hi)) _ hA

theorem specHash_ne_of_tail_diff (seed : Nat) (b1 b2 : List (Fin 256))
    (hs : seed < 2 ^ 64) (hlen : b1.length = b2.length) (hne : b1 ≠ b2)
    (hpre : ∀ i, i < 8 * (b1.length / 8) → b1[i]? = b2[i]?) :
    specHash b1 b1.length seed ≠ specHash b2 b2.length seed := by
  have hdm := Nat.div_add_mod b1.length 8
  rw [← hlen]
  apply specHash_ne_of_xor_ne b1 b2 _ _ seed seed hs hs
  rw [specChunks_congr b1 b2 _ _ hpre]
  intro heq
  have hS : tailSum b1 b1.length = tailSum b2 b1.length := Nat.xor_right_inj.mp heq
  unfold tailSum at hS
  have hbytes := byteSum_inj _ _ (fun i => Fin.isLt _) (fun i => Fin.isLt _) _ hS
  apply hne
  apply List.ext_getElem?
  intro n
  by_cases h1 : n < 8 * (b1.length / 8)
  · exact hpre n h1
  · by_cases h2 : n < b1.length
    · have hb := hbytes (n - 8 * (b1.length / 8)) (by omega)
      simp only at hb
      have hidx : 8 * (b1.length / 8) + (n - 8 * (b1.length / 8)) = n := by omega
      rw [hidx] at hb
      exact getElem?_eq_of_getD b1 b2 n h2 (by omega) hb
    · rw [List.getElem?_eq_none (by omega), List.getElem?_eq_none (by omega)]

theorem flipBit_length (b : List (Fin 256)) (i k : Nat) :
    (flipBit b i k).length = b.length := by
  unfold flipBit
  exact List.length_set _ _ _

theorem flipBit_getElem?_ne (b : List (Fin 256)) (i k n : Nat) (hn : n ≠ i) :
    (flipBit b i k)[n]? = b[n]? := by
  unfold flipBit
  exact List.getElem?_set_ne (fun h => hn h.symm)

theorem flipBit_ne (b : List (Fin 256)) (i k : Nat) (hi : i < b.length) (hk : k < 8) :
    flipBit b i k ≠ b := by
  intro heq
  have h1 : (flipBit b i k)[i]? = some (Fin.ofNat ((b.getD i 0).val ^^^ 2 ^ k)) := by
    unfold flipBit
    exact List.getElem?_set_self hi
  have h2 : b[i]? = some (b.getD i 0) := by
    simp [List.getD, List.getElem?_eq_getElem hi]
  rw [heq, h2] at h1
  have h3 := congrArg Fin.val (Option.some.inj h1)
  have hx : (b.getD i 0).val < 2 ^ 8 := (b.getD i 0).isLt
  have hp : 2 ^ k < 2 ^ 8 := Nat.pow_lt_pow_right (by decide) hk
  have hlt : (b.getD i 0).val ^^^ 2 ^ k < 256 := Nat.xor_lt_two_pow hx hp
  have h4 : (Fin.ofNat ((b.getD i 0).val ^^^ 2 ^ k) : Fin 256).val =
      (b.getD i 0).val ^^^ 2 ^ k := Nat.mod_eq_of_lt hlt
  rw [h4] at h3
  have h5 : (b.getD i 0).val ^^^ 0 = (b.getD i 0).val ^^^ 2 ^ k := by
    rw [Nat.xor_zero]; exact h3
  have h6 : 0 = 2 ^ k := Nat.xor_right_inj.mp h5
  have h7 : 0 < 2 ^ k := Nat.two_pow_pos k
  omega

/-! ## One more zero byte -/

theorem tailSum_append_zero (b : List (Fin 256)) (h7 : b.length % 8 ≠ 7) :
    tailSum (b ++ [0]) (b.length + 1) = tailSum b b.length := by
  have hdm := Nat.div_add_mod b.length 8
  have hq : (b.length + 1) / 8 = b.length / 8 := by omega
  have ht : (b.length + 1) % 8 = b.length % 8 + 1 := by omega
  unfold tailSum
  rw [hq, ht, byteSum_succ]
  have hidx : 8 * (b.length / 8) + b.length % 8 = b.length := hdm
  have hlast : (b ++ [0]).getD (8 * (b.length / 8) + b.length % 8) 0 = 0 := by
    rw [hidx, List.getD_eq_getElem?_getD, List.getElem?_append_right (Nat.le_refl _)]
    simp
  simp only [hlast]
  rw [show ((0 : Fin 256).val) = 0 from rfl, Nat.zero_mul, Nat.zero_add]
  apply byteSum_congr
  intro i hi
  rw [getD_congr (b ++ [0]) b _ (List.getElem?_append_left (by omega))]

theorem specHash_append_zero_ne (seed : Nat) (b : List (Fin 256)) (hs : seed < 2 ^ 64)
    (h7 : b.length % 8 ≠ 7) :
    specHash (b ++ [0]) (b.length + 1) seed ≠ specHash b b.length seed := by
  have hdm := Nat.div_add_mod b.length 8
  have hq : (b.length + 1) / 8 = b.length / 8 := by omega
  apply specHash_ne_of_xor_ne (b ++ [0]) b _ _ seed seed hs hs
  rw [tailSum_append_zero b h7, hq,
    specChunks_congr (b ++ [0]) b _ _ (fun i hi => List.getElem?_append_left (by omega))]
  intro heq
  have hA := Nat.xor_left_inj.mp heq
  have h0 := specChunks_inj b _ _ _ (init_lt _ _ hs) (init_lt _ _ hs) hA
  have hm : (b.length + 1) * m % 2 ^ 64 = b.length * m % 2 ^ 64 := Nat.xor_right_inj.mp h0
  simp only [m] at hm
  omega

/-! ## Agreement with the canonical switch -/

theorem canonSwitch_eq_tailSwitch (mem : List (Fin 256)) (data2 len : Nat) (s : Machine)
    (hmod : len % 8 ≠ 0) : canonSwitch mem data2 len s = tailSwitch mem data2 len s := by
  unfold canonSwitch tailSwitch
  rw [and_seven]
  have ht : len % 8 < 8 := Nat.mod_lt _ (by decide)
  generalize len % 8 = t at hmod ht
  interval_cases t
  · exact absurd rfl hmod
  all_goals rfl

theorem canonExec_eq_murmur2Exec (fuel : Nat) (mem : List (Fin 256)) (len seed : Nat)
    (hmod : len % 8 ≠ 0) : canonExec fuel mem len seed = murmur2Exec fuel mem len seed := by
  unfold canonExec murmur2Exec
  simp only [Nat.zero_add]
  cases chunkLoop mem (8 * (len / 8)) fuel 0 { h := seed ^^^ (len * m % 2 ^ 64), log := [] } with
  | fault f => rfl
  | ok p =>
    obtain ⟨d, s⟩ := p
    simp only
    rw [canonSwitch_eq_tailSwitch mem d len s hmod]

/-! ## Surjectivity in the seed -/

theorem specHash_seed_surj (b : List (Fin 256)) (N v : Nat) (hv : v < 2 ^ 64) :
    ∃ s, s < 2 ^ 64 ∧ specHash b N s = v := by
  let f : Fin (2 ^ 64) → Fin (2 ^ 64) := fun s => ⟨specHash b N s.val, specHash_lt b N s.val⟩
  have hinj : Function.Injective f := by
    intro s1 s2 h
    by_contra hne
    exact specHash_seed_inj b N s1.val s2.val s1.isLt s2.isLt (fun h2 => hne (Fin.ext h2))
      (congrArg Fin.val h)
  obtain ⟨s, hs⟩ := (Finite.injective_iff_surjective.mp hinj) ⟨v, hv⟩
  exact ⟨s.val, s.isLt, congrArg Fin.val hs⟩

theorem init_succ_ne (seed N : Nat) :
    seed ^^^ ((N + 1) * m % 2 ^ 64) ≠ seed ^^^ (N * m % 2 ^ 64) := by
  intro h0
  have hm : (N + 1) * m % 2 ^ 64 = N * m % 2 ^ 64 := Nat.xor_right_inj.mp h0
  simp only [m] at hm
  omega

/-! ## The claims -/

/-- C1: for every byte sequence `b` (of length `N = b.length`) and every seed,
`murmur2(b, N, seed)` returns the value of the specification's reference
algorithm `hash64Spec`: initialise with `seed XOR (N * m)`, mix the
`N / 8` little-endian chunks in order, fold the `N % 8` trailing bytes from the
last down to the first, multiply by `m` once, and finalise. -/
theorem murmur2_eq_hash64Spec (b : List (Fin 256)) (seed : Nat) :
    murmur2 b b.length seed = some (hash64Spec b seed) :=
  murmur2_eq_specHash b b.length seed (Nat.le_refl _)

/-- C2: on the empty input with seed `1`, and on eight zero bytes with seed `0`,
`murmur2` and the canonical `MurmurHash64A` both return a value and the two
values differ: the lengths `0` and `8` are multiples of eight, where the code
multiplies by `m` under `default:` and the canonical switch does nothing. -/
theorem murmur2_differs_from_canonical :
    murmur2 [] 0 1 = some 1923352212695860590 ∧
    MurmurHash64A [] 0 1 = some 14313749767032693980 ∧
    murmur2 (List.replicate 8 0) 8 0 = some 1953716453240135285 ∧
    MurmurHash64A (List.replicate 8 0) 8 0 = some 8217090173679840641 := by
  decide

/-- C3: with seed `0`, on each of the inputs `""`, `"a"`, `"abc"` and
`"Hello, world!"`, `murmur2` returns the value that the canonical
`MurmurHash64A` returns; on the empty input that value is `0`. -/
theorem murmur2_known_answers :
    (murmur2 [] 0 0 = some 0 ∧ MurmurHash64A [] 0 0 = some 0) ∧
    (murmur2 bytesA 1 0 = some 510903276987443985 ∧
      MurmurHash64A bytesA 1 0 = some 510903276987443985) ∧
    (murmur2 bytesAbc 3 0 = some 11297775770902552315 ∧
      MurmurHash64A bytesAbc 3 0 = some 11297775770902552315) ∧
    (murmur2 bytesHello 13 0 = some 11600739918808951577 ∧
      MurmurHash64A bytesHello 13 0 = some 11600739918808951577) := by
  decide

/-- C4: when the buffer holds at least `len` bytes and the loop has at least
`len / 8` units of fuel, `murmur2` returns a value.  The chunk loop ends at
offset `8 * (len / 8)` having made exactly the accesses `loopLog len`, which
touch the offsets `0 .. 8 * (len / 8) - 1` in order; the switch then makes
exactly the accesses `tailLog len`, which touch the offsets
`8 * (len / 8) .. len - 1` from the last down; every offset touched is below
`len`. -/
theorem murmur2_total (mem : List (Fin 256)) (len seed fuel : Nat)
    (hlen : len ≤ mem.length) (hfuel : len / 8 ≤ fuel) :
    ∃ h1 h2 : Nat,
      chunkLoop mem (8 * (len / 8)) fuel 0 { h := seed ^^^ (len * m % 2 ^ 64), log := [] } =
        .ok (8 * (len / 8), { h := h1, log := loopLog len }) ∧
      tailSwitch mem (8 * (len / 8)) len { h := h1, log := loopLog len } =
        .ok { h := h2, log := loopLog len ++ tailLog len } ∧
      murmur2Exec fuel mem len seed =
        .ok { h := finalize h2, log := loopLog len ++ tailLog len } ∧
      murmur2 mem len seed = some (finalize h2) ∧
      touched (loopLog len) = List.range (8 * (len / 8)) ∧
      touched (tailLog len) = (List.range' (8 * (len / 8)) (len % 8)).reverse ∧
      ∀ i, i ∈ touched (loopLog len ++ tailLog len) → i < len := by
  have hdm := Nat.div_add_mod len 8
  have hloop := chunkLoop_run mem (len / 8) 0 fuel
    { h := seed ^^^ (len * m % 2 ^ 64), log := [] } hfuel (by omega)
  simp only [Nat.zero_add, Nat.mul_zero, List.nil_append] at hloop
  have htail := tailSwitch_run mem (8 * (len / 8)) len
    { h := specChunks mem (len / 8) (seed ^^^ (len * m % 2 ^ 64)), log := loopLog len }
    (by omega)
  refine ⟨specChunks mem (len / 8) (seed ^^^ (len * m % 2 ^ 64)),
    specTail mem (8 * (len / 8)) (len % 8)
      (specChunks mem (len / 8) (seed ^^^ (len * m % 2 ^ 64))), ?_, ?_, ?_, ?_,
    touched_loopLog len, touched_tailLog len, touched_lt len⟩
  · rw [hloop]
    simp [specChunks, loopLog, List.range_eq_range']
  · rw [htail]
    rfl
  · rw [murmur2Exec_run mem len seed fuel hlen hfuel]
    rfl
  · rw [murmur2_eq_specHash mem len seed hlen]
    rfl

/-- Witness for C4: the thirteen bytes of `Hello, world!`, one unit of fuel. -/
theorem murmur2_total_witness :
    13 ≤ bytesHello.length ∧ 13 / 8 ≤ 1 ∧
    ∃ h1 h2 : Nat,
      chunkLoop bytesHello (8 * (13 / 8)) 1 0 { h := 0 ^^^ (13 * m % 2 ^ 64), log := [] } =
        .ok (8 * (13 / 8), { h := h1, log := loopLog 13 }) ∧
      tailSwitch bytesHello (8 * (13 / 8)) 13 { h := h1, log := loopLog 13 } =
        .ok { h := h2, log := loopLog 13 ++ tailLog 13 } ∧
      murmur2Exec 1 bytesHello 13 0 =
        .ok { h := finalize h2, log := loopLog 13 ++ tailLog 13 } ∧
      murmur2 bytesHello 13 0 = some (finalize h2) ∧
      touched (loopLog 13) = List.range (8 * (13 / 8)) ∧
      touched (tailLog 13) = (List.range' (8 * (13 / 8)) (13 % 8)).reverse ∧
      ∀ i, i ∈ touched (loopLog 13 ++ tailLog 13) → i < 13 :=
  ⟨by decide, by decide, murmur2_total bytesHello 13 0 1 (by decide) (by decide)⟩

/-- C5: for length `0`, whatever the buffer, the seed and the fuel, `murmur2`
returns `h2 XOR (h2 >> 47)` where `h0 = seed * m mod 2^64`,
`h1 = h0 XOR (h0 >> 47)` and `h2 = h1 * m mod 2^64`, and performs no memory
access. -/
theorem murmur2_empty (mem : List (Fin 256)) (seed fuel : Nat) :
    murmur2Exec fuel mem 0 seed =
      .ok { h := ((seed * m % 2 ^ 64) ^^^ ((seed * m % 2 ^ 64) >>> 47)) * m % 2 ^ 64 ^^^
                 ((((seed * m % 2 ^ 64) ^^^ ((seed * m % 2 ^ 64) >>> 47)) * m % 2 ^ 64) >>> 47),
            log := [] } ∧
    murmur2 mem 0 seed =
      some (((seed * m % 2 ^ 64) ^^^ ((seed * m % 2 ^ 64) >>> 47)) * m % 2 ^ 64 ^^^
            ((((seed * m % 2 ^ 64) ^^^ ((seed * m % 2 ^ 64) >>> 47)) * m % 2 ^ 64) >>> 47)) := by
  have hexec : ∀ f, murmur2Exec f mem 0 seed =
      .ok { h := ((seed * m % 2 ^ 64) ^^^ ((seed * m % 2 ^ 64) >>> 47)) * m % 2 ^ 64 ^^^
                 ((((seed * m % 2 ^ 64) ^^^ ((seed * m % 2 ^ 64) >>> 47)) * m % 2 ^ 64) >>> 47),
            log := [] } := by
    intro f
    unfold murmur2Exec
    simp [chunkLoop_done, tailSwitch, caseDefault, finalize, r]
  refine ⟨hexec fuel, ?_⟩
  unfold murmur2
  rw [hexec]

/-- C6: two buffers that agree on their first `len` bytes give the same
execution (value, fault and access log alike) for every fuel and seed, hence
the same returned value: bytes at offset `len` and beyond have no influence. -/
theorem murmur2_deterministic (m1 m2 : List (Fin 256)) (len seed : Nat)
    (hpre : m1.take len = m2.take len) :
    murmur2 m1 len seed = murmur2 m2 len seed ∧
    ∀ fuel, murmur2Exec fuel m1 len seed = murmur2Exec fuel m2 len seed := by
  have hag := agree_of_take_eq m1 m2 len hpre
  refine ⟨?_, fun fuel => murmur2Exec_congr m1 m2 len hag fuel seed⟩
  unfold murmur2
  rw [murmur2Exec_congr m1 m2 len hag (len / 8) seed]

/-- Witness for C6: two buffers of different lengths sharing their first three
bytes. -/
theorem murmur2_deterministic_witness :
    ([1, 2, 3, 9] : List (Fin 256)).take 3 = ([1, 2, 3, 7, 7] : List (Fin 256)).take 3 ∧
    murmur2 [1, 2, 3, 9] 3 5 = murmur2 [1, 2, 3, 7, 7] 3 5 ∧
    ∀ fuel, murmur2Exec fuel [1, 2, 3, 9] 3 5 = murmur2Exec fuel [1, 2, 3, 7, 7] 3 5 :=
  ⟨by decide, murmur2_deterministic [1, 2, 3, 9] [1, 2, 3, 7, 7] 3 5 (by decide)⟩

/-- C7: the hash is not constant in the seed: on the empty input, seed `0`
gives `0` and seed `1` gives a non-zero value, so there are a byte sequence and
two distinct 64-bit seeds with distinct hashes. -/
theorem murmur2_seed_sensitive :
    murmur2 [] 0 0 = some 0 ∧ murmur2 [] 0 1 = some 1923352212695860590 ∧
    ∃ (b : List (Fin 256)) (s1 s2 v1 v2 : Nat), s1 ≠ s2 ∧ s1 < 2 ^ 64 ∧ s2 < 2 ^ 64 ∧
      murmur2 b b.length s1 = some v1 ∧ murmur2 b b.length s2 = some v2 ∧ v1 ≠ v2 :=
  ⟨by decide, by decide, [], 0, 1, 0, 1923352212695860590, by decide⟩

/-- C8: when the `len % 8` trailing bytes `d i = mem[data2 + i]` lie inside the
buffer, the fall-through switch on `len & 7` leaves the accumulator equal to
`(h XOR (sum over i < t of d i * 2 ^ (8 * i))) * m mod 2 ^ 64`, reading the
trailing bytes from the last down to the first; that value is the one computed
by the explicit descending loop `specTail`, which multiplies by `m` once. -/
theorem tailSwitch_spec (mem : List (Fin 256)) (data2 len : Nat) (s : Machine)
    (hb : data2 + len % 8 ≤ mem.length) :
    tailSwitch mem data2 len s =
      .ok { h := (s.h ^^^ byteSum (fun i => (mem.getD (data2 + i) 0).val) (len % 8)) * m
                   % 2 ^ 64,
            log := s.log ++
              (List.range (len % 8)).reverse.map (fun i => Access.byte (data2 + i)) } ∧
    (s.h ^^^ byteSum (fun i => (mem.getD (data2 + i) 0).val) (len % 8)) * m % 2 ^ 64 =
      specTail mem data2 (len % 8) s.h := by
  have ht : len % 8 ≤ 8 := Nat.le_of_lt (Nat.mod_lt _ (by decide))
  have hsum := specTail_eq_byteSum mem data2 (len % 8) s.h ht
  refine ⟨?_, hsum.symm⟩
  rw [tailSwitch_run mem data2 len s hb, hsum]

/-- Witness for C8: the five trailing bytes of `Hello, world!`. -/
theorem tailSwitch_spec_witness :
    8 + 13 % 8 ≤ bytesHello.length ∧
    tailSwitch bytesHello 8 13 { h := 5, log := [] } =
      .ok { h := (5 ^^^ byteSum (fun i => (bytesHello.getD (8 + i) 0).val) (13 % 8)) * m
                   % 2 ^ 64,
            log := [] ++ (List.range (13 % 8)).reverse.map (fun i => Access.byte (8 + i)) } ∧
    (5 ^^^ byteSum (fun i => (bytesHello.getD (8 + i) 0).val) (13 % 8)) * m % 2 ^ 64 =
      specTail bytesHello 8 (13 % 8) 5 :=
  ⟨by decide, tailSwitch_spec bytesHello 8 13 { h := 5, log := [] } (by decide)⟩

/-- C9: with at least `len / 8` units of fuel the loop `while (data != end)`
never runs out of fuel, whatever the memory; when the buffer holds `len` bytes
it ends at offset `8 * (len / 8)` after exactly `len / 8` iterations, iteration
`j` loading the word at offset `8 * j` (so the offsets `0 .. 8 * (len / 8) - 1`
are consumed in order), with zero iterations for `len < 8`, and `len % 8` bytes
remain. -/
theorem chunkLoop_iterations (mem : List (Fin 256)) (len fuel : Nat) (s : Machine)
    (hlen : len ≤ mem.length) (hfuel : len / 8 ≤ fuel) :
    (∀ mem2 : List (Fin 256), chunkLoop mem2 (8 * (len / 8)) fuel 0 s ≠ .fault .outOfFuel) ∧
    chunkLoop mem (8 * (len / 8)) fuel 0 s =
      .ok (8 * (len / 8),
        { h := specChunks mem (len / 8) s.h,
          log := s.log ++ (List.range (len / 8)).map (fun j => Access.word (8 * j)) }) ∧
    ((List.range (len / 8)).map (fun j => Access.word (8 * j))).length = len / 8 ∧
    touched ((List.range (len / 8)).map (fun j => Access.word (8 * j))) =
      List.range (8 * (len / 8)) ∧
    (len < 8 → chunkLoop mem (8 * (len / 8)) fuel 0 s = .ok (0, s)) ∧
    len - 8 * (len / 8) = len % 8 := by
  have hdm := Nat.div_add_mod len 8
  have hloop := chunkLoop_run mem (len / 8) 0 fuel s hfuel (by omega)
  simp only [Nat.zero_add, Nat.mul_zero] at hloop
  refine ⟨?_, ?_, by simp, touched_words _, ?_, by omega⟩
  · intro mem2
    have hf := chunkLoop_fuel mem2 (len / 8) 0 fuel s hfuel
    simpa using hf
  · rw [hloop]
    simp [specChunks, List.range_eq_range']
  · intro hlt
    have hq : len / 8 = 0 := Nat.div_eq_of_lt hlt
    rw [hq]
    exact chunkLoop_done mem 0 fuel s

/-- Witness for C9: the thirteen bytes of `Hello, world!`, one unit of fuel. -/
theorem chunkLoop_iterations_witness :
    13 ≤ bytesHello.length ∧ 13 / 8 ≤ 1 ∧
    (∀ mem2 : List (Fin 256),
      chunkLoop mem2 (8 * (13 / 8)) 1 0 { h := 5, log := [] } ≠ .fault .outOfFuel) ∧
    chunkLoop bytesHello (8 * (13 / 8)) 1 0 { h := 5, log := [] } =
      .ok (8 * (13 / 8),
        { h := specChunks bytesHello (13 / 8) 5,
          log := [] ++ (List.range (13 / 8)).map (fun j => Access.word (8 * j)) }) ∧
    ((List.range (13 / 8)).map (fun j => Access.word (8 * j))).length = 13 / 8 ∧
    touched ((List.range (13 / 8)).map (fun j => Access.word (8 * j))) =
      List.range (8 * (13 / 8)) ∧
    (13 < 8 → chunkLoop bytesHello (8 * (13 / 8)) 1 0 { h := 5, log := [] } =
      .ok (0, { h := 5, log := [] })) ∧
    13 - 8 * (13 / 8) = 13 % 8 :=
  ⟨by decide, by decide,
    chunkLoop_iterations bytesHello 13 1 { h := 5, log := [] } (by decide) (by decide)⟩

/-- C10: for every seed, every 16-byte input `b` and every replacement first
chunk `c1` there is a second chunk `c2` such that `murmur2` returns the same
value on `c1 ++ c2` as on `b` (and the two inputs differ as soon as `c1` is not
the first chunk of `b`); hence for every seed two distinct 16-byte inputs with
the same hash exist. -/
theorem murmur2_not_collision_resistant (seed : Nat) :
    (∀ b c1 : List (Fin 256), b.length = 16 → c1.length = 8 →
      ∃ (c2 : List (Fin 256)) (v : Nat), c2.length = 8 ∧
        murmur2 b 16 seed = some v ∧ murmur2 (c1 ++ c2) 16 seed = some v ∧
        (c1 ≠ b.take 8 → c1 ++ c2 ≠ b)) ∧
    ∃ (b1 b2 : List (Fin 256)) (v : Nat), b1.length = 16 ∧ b2.length = 16 ∧ b1 ≠ b2 ∧
      murmur2 b1 16 seed = some v ∧ murmur2 b2 16 seed = some v := by
  refine ⟨fun b c1 hb hc => second_chunk_collides seed b c1 hb hc, ?_⟩
  obtain ⟨c2, v, hc2, hv1, hv2, hne⟩ :=
    second_chunk_collides seed (List.replicate 16 0) (List.replicate 8 1) (by decide)
      (by decide)
  exact ⟨List.replicate 16 0, List.replicate 8 1 ++ c2, v, by decide, by simp [hc2],
    fun h => hne (by decide) h.symm, hv1, hv2⟩

/-- Witness for C10: seed `7`, sixteen zero bytes, replacement chunk of eight
ones. -/
theorem murmur2_not_collision_resistant_witness :
    ∃ (c2 : List (Fin 256)) (v : Nat), c2.length = 8 ∧
      murmur2 (List.replicate 16 0) 16 7 = some v ∧
      murmur2 (List.replicate 8 1 ++ c2) 16 7 = some v ∧
      (List.replicate 8 1 ≠ (List.replicate 16 (0 : Fin 256)).take 8 →
        List.replicate 8 1 ++ c2 ≠ List.replicate 16 0) :=
  (murmur2_not_collision_resistant 7).1 (List.replicate 16 0) (List.replicate 8 1)
    (by decide) (by decide)

/-- C11: for every fixed byte sequence `b`, the map `seed -> murmur2(b, seed)`
is a bijection on 64-bit words: every 64-bit seed yields a 64-bit value, any two
distinct 64-bit seeds yield distinct values, and every 64-bit value is the hash
of `b` under some 64-bit seed. -/
theorem murmur2_seed_bijective (b : List (Fin 256)) :
    (∀ s, s < 2 ^ 64 → ∃ v, v < 2 ^ 64 ∧ murmur2 b b.length s = some v) ∧
    (∀ s1 s2, s1 < 2 ^ 64 → s2 < 2 ^ 64 → s1 ≠ s2 →
      ∃ v1 v2, murmur2 b b.length s1 = some v1 ∧ murmur2 b b.length s2 = some v2 ∧
        v1 ≠ v2) ∧
    (∀ v, v < 2 ^ 64 → ∃ s, s < 2 ^ 64 ∧ murmur2 b b.length s = some v) := by
  have hrun : ∀ s, murmur2 b b.length s = some (specHash b b.length s) :=
    fun s => murmur2_eq_specHash b b.length s (Nat.le_refl _)
  refine ⟨fun s _ => ⟨_, specHash_lt b b.length s, hrun s⟩, ?_, ?_⟩
  · intro s1 s2 h1 h2 hne
    exact ⟨_, _, hrun s1, hrun s2, specHash_seed_inj b b.length s1 s2 h1 h2 hne⟩
  · intro v hv
    obtain ⟨s, hs, hval⟩ := specHash_seed_surj b b.length v hv
    exact ⟨s, hs, by rw [hrun s, hval]⟩

/-- Witness for C11: the seeds `0` and `1` on the input `Hello, world!`. -/
theorem murmur2_seed_bijective_witness :
    ∃ v1 v2, murmur2 bytesHello bytesHello.length 0 = some v1 ∧
      murmur2 bytesHello bytesHello.length 1 = some v2 ∧ v1 ≠ v2 :=
  (murmur2_seed_bijective bytesHello).2.1 0 1 (by decide) (by decide) (by decide)

/-- C12: when `len` is not a multiple of eight and the buffer holds `len`
bytes, `murmur2` and the canonical `MurmurHash64A` return the same value, and
their executions coincide for every fuel: the switch is entered at one of
`case 7` .. `case 1`, which both versions share, and falls through to the same
single `h *= m`. -/
theorem murmur2_eq_canonical_off_multiples (mem : List (Fin 256)) (len seed : Nat)
    (hmod : len % 8 ≠ 0) (hlen : len ≤ mem.length) :
    (∃ v, murmur2 mem len seed = some v ∧ MurmurHash64A mem len seed = some v) ∧
    ∀ fuel, canonExec fuel mem len seed = murmur2Exec fuel mem len seed := by
  refine ⟨⟨specHash mem len seed, murmur2_eq_specHash mem len seed hlen, ?_⟩,
    fun fuel => canonExec_eq_murmur2Exec fuel mem len seed hmod⟩
  unfold MurmurHash64A
  rw [canonExec_eq_murmur2Exec _ mem len seed hmod,
    murmur2Exec_run mem len seed (len / 8) hlen (Nat.le_refl _)]

/-- Witness for C12: the thirteen bytes of `Hello, world!` with seed `9`. -/
theorem murmur2_eq_canonical_off_multiples_witness :
    13 % 8 ≠ 0 ∧ 13 ≤ bytesHello.length ∧
    (∃ v, murmur2 bytesHello 13 9 = some v ∧ MurmurHash64A bytesHello 13 9 = some v) ∧
    ∀ fuel, canonExec fuel bytesHello 13 9 = murmur2Exec fuel bytesHello 13 9 :=
  ⟨by decide, by decide,
    murmur2_eq_canonical_off_multiples bytesHello 13 9 (by decide) (by decide)⟩

/-- C13: for every 64-bit seed, two distinct byte sequences of the same length
that agree outside one aligned eight-byte chunk, or agree on all the chunks (so
differ only in the trailing bytes), have different hashes; in particular
flipping one bit of an input changes its hash, and on inputs of one length
`N <= 8` the hash is injective. -/
theorem murmur2_local_injective (seed : Nat) (hs : seed < 2 ^ 64) :
    (∀ b1 b2 : List (Fin 256), b1.length = b2.length → b1 ≠ b2 →
      ((∃ j, j < b1.length / 8 ∧ ∀ i, (i < 8 * j ∨ 8 * j + 8 ≤ i) → b1[i]? = b2[i]?) ∨
        (∀ i, i < 8 * (b1.length / 8) → b1[i]? = b2[i]?)) →
      ∃ v1 v2, murmur2 b1 b1.length seed = some v1 ∧ murmur2 b2 b2.length seed = some v2 ∧
        v1 ≠ v2) ∧
    (∀ (b : List (Fin 256)) (i k : Nat), i < b.length → k < 8 →
      ∃ v1 v2, murmur2 (flipBit b i k) (flipBit b i k).length seed = some v1 ∧
        murmur2 b b.length seed = some v2 ∧ v1 ≠ v2) ∧
    (∀ b1 b2 : List (Fin 256), b1.length = b2.length → b1.length ≤ 8 → b1 ≠ b2 →
      ∃ v1 v2, murmur2 b1 b1.length seed = some v1 ∧ murmur2 b2 b2.length seed = some v2 ∧
        v1 ≠ v2) := by
  have hrun : ∀ b : List (Fin 256), murmur2 b b.length seed = some (specHash b b.length seed) :=
    fun b => murmur2_eq_specHash b b.length seed (Nat.le_refl _)
  have hmain : ∀ b1 b2 : List (Fin 256), b1.length = b2.length → b1 ≠ b2 →
      ((∃ j, j < b1.length / 8 ∧ ∀ i, (i < 8 * j ∨ 8 * j + 8 ≤ i) → b1[i]? = b2[i]?) ∨
        (∀ i, i < 8 * (b1.length / 8) → b1[i]? = b2[i]?)) →
      specHash b1 b1.length seed ≠ specHash b2 b2.length seed := by
    intro b1 b2 hlen hne hloc
    rcases hloc with ⟨j, hj, hout⟩ | hpre
    · exact specHash_ne_of_chunk_diff seed b1 b2 j hs hlen hne hj hout
    · exact specHash_ne_of_tail_diff seed b1 b2 hs hlen hne hpre
  refine ⟨fun b1 b2 hlen hne hloc => ⟨_, _, hrun b1, hrun b2, hmain b1 b2 hlen hne hloc⟩,
    ?_, ?_⟩
  · intro b i k hi hk
    refine ⟨_, _, hrun _, hrun b, hmain _ b (flipBit_length b i k) (flipBit_ne b i k hi hk) ?_⟩
    rw [flipBit_length]
    by_cases hchunk : i < 8 * (b.length / 8)
    · left
      refine ⟨i / 8, by omega, fun n hn => flipBit_getElem?_ne b i k n (by omega)⟩
    · right
      exact fun n hn => flipBit_getElem?_ne b i k n (by omega)
  · intro b1 b2 hlen h8 hne
    refine ⟨_, _, hrun b1, hrun b2, hmain b1 b2 hlen hne ?_⟩
    by_cases hN : b1.length = 8
    · left
      refine ⟨0, by omega, fun i hi => ?_⟩
      rw [List.getElem?_eq_none (by omega), List.getElem?_eq_none (by omega)]
    · right
      intro i hi
      omega

/-- Witness for C13: seed `7`; bit `2` of byte `3` of `Hello, world!` flipped,
and the two one-byte inputs `a` and `b`. -/
theorem murmur2_local_injective_witness :
    7 < 2 ^ 64 ∧
    (∃ v1 v2, murmur2 (flipBit bytesHello 3 2) (flipBit bytesHello 3 2).length 7 = some v1 ∧
      murmur2 bytesHello bytesHello.length 7 = some v2 ∧ v1 ≠ v2) ∧
    (∃ v1 v2, murmur2 bytesA bytesA.length 7 = some v1 ∧
      murmur2 [98] ([98] : List (Fin 256)).length 7 = some v2 ∧ v1 ≠ v2) :=
  ⟨by decide,
    (murmur2_local_injective 7 (by decide)).2.1 bytesHello 3 2 (by decide) (by decide),
    (murmur2_local_injective 7 (by decide)).2.2 bytesA [98] (by decide) (by decide)
      (by decide)⟩

/-- C14: for every 64-bit seed and every byte sequence `b` whose length `N`
has `N % 8 != 7`, appending one zero byte changes the hash: the padded input has
the same number of chunks and the same folded trailing value, the initial
accumulators `seed XOR ((N + 1) * m)` and `seed XOR (N * m)` differ, and the
remaining steps are the same bijections. -/
theorem murmur2_zero_padding (seed : Nat) (b : List (Fin 256)) (hs : seed < 2 ^ 64)
    (h7 : b.length % 8 ≠ 7) :
    (∃ v1 v2, murmur2 (b ++ [0]) (b.length + 1) seed = some v1 ∧
      murmur2 b b.length seed = some v2 ∧ v1 ≠ v2) ∧
    (b.length + 1) / 8 = b.length / 8 ∧
    tailSum (b ++ [0]) (b.length + 1) = tailSum b b.length ∧
    seed ^^^ ((b.length + 1) * m % 2 ^ 64) ≠ seed ^^^ (b.length * m % 2 ^ 64) := by
  have hdm := Nat.div_add_mod b.length 8
  refine ⟨⟨_, _, murmur2_eq_specHash (b ++ [0]) (b.length + 1) seed (by simp),
    murmur2_eq_specHash b b.length seed (Nat.le_refl _),
    specHash_append_zero_ne seed b hs h7⟩, by omega, tailSum_append_zero b h7,
    init_succ_ne seed b.length⟩

/-- Witness for C14: the input `Hello, world!` (length 13) with seed `7`. -/
theorem murmur2_zero_padding_witness :
    7 < 2 ^ 64 ∧ bytesHello.length % 8 ≠ 7 ∧
    (∃ v1 v2, murmur2 (bytesHello ++ [0]) (bytesHello.length + 1) 7 = some v1 ∧
      murmur2 bytesHello bytesHello.length 7 = some v2 ∧ v1 ≠ v2) :=
  ⟨by decide, by decide, (murmur2_zero_padding 7 bytesHello (by decide) (by decide)).1⟩

end Murmur2
